import Mathlib

/-!
Shallow embedding of `src/main.rs` of the `mandelbrot_generator` repository.

Numeric convention: the program computes with `f64`; the embedding uses exact
rational arithmetic (`ℚ`) for the complex components, the standard idealization
of the real-number semantics the specification describes.  Machine-integer
`usize` values become `Nat`.  A fallible operation (the `assert!` in `render`,
a slice write) is modelled with `Option`, `none` standing for an abort.
-/

/-- Complex numbers with rational components, modelling `num::Complex<f64>`. -/
@[ext]
structure CQ where
  re : ℚ
  im : ℚ
  deriving DecidableEq, Repr

namespace CQ

/-- Complex multiplication, as implemented by `num::Complex`. -/
def mul (a b : CQ) : CQ :=
  ⟨a.re * b.re - a.im * b.im, a.re * b.im + a.im * b.re⟩

/-- Complex addition, as implemented by `num::Complex`. -/
def add (a b : CQ) : CQ :=
  ⟨a.re + b.re, a.im + b.im⟩

/-- Squared magnitude `re*re + im*im`, modelling `Complex::norm_sqr`. -/
def norm_sqr (a : CQ) : ℚ :=
  a.re * a.re + a.im * a.im

end CQ

/-- Fuel-indexed loop of `escape_time`: state `z`, loop counter `i`, remaining
iterations `fuel`.  Each round first tests `z.norm_sqr() > 4.0` and returns the
current counter on escape, otherwise steps `z ← z*z + c`. -/
def escape_time_aux (c : CQ) : ℕ → CQ → ℕ → Option ℕ
  | 0, _, _ => none
  | fuel + 1, z, i =>
      if z.norm_sqr > 4 then some i
      else escape_time_aux c fuel ((z.mul z).add c) (i + 1)

/-- Model of `escape_time(c, limit)` from `src/main.rs`: run the escape loop
starting from `z = 0 + 0i` for at most `limit` iterations. -/
def escape_time (c : CQ) (limit : ℕ) : Option ℕ :=
  escape_time_aux c limit ⟨0, 0⟩ 0

/-- Mathematical iteration `z_0 = 0`, `z_{k+1} = z_k * z_k + c` that the loop
of `escape_time` traverses. -/
def zIter (c : CQ) : ℕ → CQ
  | 0 => ⟨0, 0⟩
  | n + 1 => ((zIter c n).mul (zIter c n)).add c

/-- Model of `pixel_to_point(bounds, pixel, upper_left, lower_right)`:
`bounds = (width, height)` in pixels, `pixel = (column, row)`. -/
def pixel_to_point (bounds : ℕ × ℕ) (pixel : ℕ × ℕ)
    (upper_left lower_right : CQ) : CQ :=
  ⟨upper_left.re +
      (pixel.1 : ℚ) * (lower_right.re - upper_left.re) / (bounds.1 : ℚ),
   upper_left.im -
      (pixel.2 : ℚ) * (upper_left.im - lower_right.im) / (bounds.2 : ℚ)⟩

/-- Grey value `render` stores for one point: `0` when `escape_time` with
limit `255` gives no value, else `255 - count` (the `u8` cast is exact since
`count < 255`, so natural subtraction is faithful). -/
def pixelColor (point : CQ) : ℕ :=
  match escape_time point 255 with
  | none => 0
  | some count => 255 - count

/-- Bounds-checked write to a byte buffer: a Rust slice write `buffer[i] = v`
aborts when `i` is out of bounds, modelled by `none`. -/
def setChecked (l : List ℕ) (i : ℕ) (v : ℕ) : Option (List ℕ) :=
  if i < l.length then some (l.set i v) else none

/-- Model of `render(pixels, bounds, upper_left, lower_right)`: the
`assert_eq!(pixels.len(), bounds.0 * bounds.1)` becomes the top-level guard
(its failure, an abort, is `none`), and the two nested loops write
`pixels[row * bounds.0 + column]` with checked slice writes. -/
def render (pixels : List ℕ) (bounds : ℕ × ℕ)
    (upper_left lower_right : CQ) : Option (List ℕ) :=
  if pixels.length = bounds.1 * bounds.2 then
    (List.range bounds.2).foldlM
      (fun buf row =>
        (List.range bounds.1).foldlM
          (fun buf column =>
            setChecked buf (row * bounds.1 + column)
              (pixelColor (pixel_to_point bounds (column, row)
                upper_left lower_right)))
          buf)
      pixels
  else none

/-!  String parsing.  `parse_pair` delegates to `str::find` and `T::from_str`;
strings are modelled as `List Char` and splitting happens at the first
occurrence of the separator character. -/

/-- Model of `s.find(separator)` followed by the two slicings
`&s[..index]` and `&s[index + 1..]`: splits at the first occurrence of the
separator, returning the text before and after it, or `none` when the
separator does not occur. -/
def splitAtFirst : List Char → Char → Option (List Char × List Char)
  | [], _ => none
  | c :: rest, sep =>
      if c = sep then some ([], rest)
      else (splitAtFirst rest sep).map (fun p => (c :: p.1, p.2))

/-- Model of `parse_pair::<T>(s, separator)`, generic over the `T::from_str`
conversion: split at the first separator, require both conversions to
succeed. -/
def parse_pair {T : Type} (fromStr : List Char → Option T)
    (s : List Char) (separator : Char) : Option (T × T) :=
  match splitAtFirst s separator with
  | none => none
  | some (l, r) =>
      match fromStr l, fromStr r with
      | some a, some b => some (a, b)
      | _, _ => none

/-- Numeric value of a digit string (most significant first); meaningful when
every character is a digit. -/
def digitsToNat (s : List Char) : ℕ :=
  s.foldl (fun acc c => acc * 10 + (c.toNat - 48)) 0

/-- Check that every character of the string is an ASCII digit. -/
def isDigits (s : List Char) : Bool :=
  s.all Char.isDigit

/-- Parse a nonempty all-digit string to its numeric value, failing
otherwise. -/
def parseDigits (s : List Char) : Option ℕ :=
  if !s.isEmpty && isDigits s then some (digitsToNat s) else none

/-- Model of `i32::from_str`: an optional sign followed by a nonempty digit
string, with the value required to fit in a 32-bit signed integer. -/
def i32_from_str (s : List Char) : Option ℤ :=
  match s with
  | '+' :: rest =>
      (parseDigits rest).bind
        (fun n => if (n : ℤ) ≤ 2147483647 then some (n : ℤ) else none)
  | '-' :: rest =>
      (parseDigits rest).bind
        (fun n => if (n : ℤ) ≤ 2147483648 then some (-(n : ℤ)) else none)
  | _ =>
      (parseDigits s).bind
        (fun n => if (n : ℤ) ≤ 2147483647 then some (n : ℤ) else none)

/-- Unsigned decimal literal `digits [. digits]`, with at least one digit in
total, valued exactly as a rational. -/
def parseDecimal (s : List Char) : Option ℚ :=
  match splitAtFirst s '.' with
  | none => (parseDigits s).map (fun n => (n : ℚ))
  | some (ip, fp) =>
      if ip.isEmpty && fp.isEmpty then none
      else if isDigits ip && isDigits fp then
        some ((digitsToNat ip : ℚ) + (digitsToNat fp : ℚ) / (10 ^ fp.length : ℚ))
      else none

/-- Model of the plain-decimal fragment of `f64::from_str` (optional sign,
digits, optional fractional part; the special forms `inf`, `NaN` and exponents
are outside the fragment the specification exercises).  Decimal literals are
valued exactly; the inputs the claims use (`0.5`, `1.5`) are exactly
representable in `f64`, so the idealization is faithful there. -/
def f64_from_str (s : List Char) : Option ℚ :=
  match s with
  | '+' :: rest => parseDecimal rest
  | '-' :: rest => (parseDecimal rest).map Neg.neg
  | _ => parseDecimal s

/-!  Banding, as performed by `main`: the pixel buffer is split with
`chunks_mut(bounds.0)` into one band per row, each band is rendered as a
`(width, 1)` image with corners derived through `pixel_to_point`, and the
bands are processed by Rayon in an unspecified order. -/

/-- Corners and rendering of the band for row `r`, exactly as `main` derives
them: `band_upper_left = pixel_to_point(bounds, (0, r), ...)`,
`band_lower_right = pixel_to_point(bounds, (width, r + 1), ...)`, rendered as
a `(width, 1)` image over the row-sized zero-initialized chunk. -/
def renderBand (bounds : ℕ × ℕ) (upper_left lower_right : CQ) (r : ℕ) :
    Option (List ℕ) :=
  render (List.replicate bounds.1 0) (bounds.1, 1)
    (pixel_to_point bounds (0, r) upper_left lower_right)
    (pixel_to_point bounds (bounds.1, r + 1) upper_left lower_right)

/-- Bytes of the band for row `r` (the band render never aborts, so the
default is never taken). -/
def bandBytes (bounds : ℕ × ℕ) (upper_left lower_right : CQ) (r : ℕ) :
    List ℕ :=
  (renderBand bounds upper_left lower_right r).getD []

/-- Overwrite the buffer with a segment starting at offset `off`,
modelling writing a rendered band back into its `chunks_mut` slot. -/
def overwriteAt (buf : List ℕ) (off : ℕ) : List ℕ → List ℕ
  | [] => buf
  | v :: rest => overwriteAt (buf.set off v) (off + 1) rest

/-- Assemble the bands into the shared pixel buffer, processing the rows in
the (arbitrary) order `order`; each band occupies the `chunks_mut` slot at
offset `r * width`.  Rayon's scheduling is modelled by quantifying over all
permutations of the row order. -/
def placeBands (w : ℕ) (bands : ℕ → List ℕ) (order : List ℕ)
    (buf : List ℕ) : List ℕ :=
  order.foldl (fun b r => overwriteAt b (r * w) (bands r)) buf

/-!  Characterization of `escape_time` through the iteration `zIter`. -/

lemma zIter_succ (c : CQ) (n : ℕ) :
    zIter c (n + 1) = ((zIter c n).mul (zIter c n)).add c := rfl

lemma escape_time_aux_eq_some_iff (c : CQ) :
    ∀ (fuel i j : ℕ),
      escape_time_aux c fuel (zIter c i) i = some j ↔
        i ≤ j ∧ j < i + fuel ∧ 4 < (zIter c j).norm_sqr ∧
          ∀ k, i ≤ k → k < j → (zIter c k).norm_sqr ≤ 4 := by
  intro fuel
  induction fuel with
  | zero =>
      intro i j
      simp only [escape_time_aux]
      constructor
      · intro h; exact absurd h (by simp)
      · intro h; omega
  | succ fuel ih =>
      intro i j
      rw [escape_time_aux]
      by_cases h : (zIter c i).norm_sqr > 4
      · rw [if_pos h]
        constructor
        · intro hj
          have hij : i = j := by exact Option.some.inj hj
          subst hij
          exact ⟨le_refl i, by omega, h, fun k hk hk2 => absurd hk2 (by omega)⟩
        · rintro ⟨hij, _, _, hall⟩
          rcases Nat.eq_or_lt_of_le hij with rfl | hlt
          · rfl
          · exact absurd (hall i (le_refl i) hlt) (by exact not_le.mpr h)
      · rw [if_neg h, ← zIter_succ c i, ih (i + 1) j]
        push_neg at h
        constructor
        · rintro ⟨hij, hjb, hesc, hall⟩
          refine ⟨by omega, by omega, hesc, ?_⟩
          intro k hk hk2
          rcases Nat.eq_or_lt_of_le hk with rfl | hki
          · exact h
          · exact hall k hki hk2
        · rintro ⟨hij, hjb, hesc, hall⟩
          have hij' : i + 1 ≤ j := by
            rcases Nat.eq_or_lt_of_le hij with rfl | hki
            · exact absurd hesc (by exact not_lt.mpr h)
            · omega
          exact ⟨hij', by omega, hesc, fun k hk hk2 => hall k (by omega) hk2⟩

lemma escape_time_aux_eq_none_iff (c : CQ) :
    ∀ (fuel i : ℕ),
      escape_time_aux c fuel (zIter c i) i = none ↔
        ∀ k, i ≤ k → k < i + fuel → (zIter c k).norm_sqr ≤ 4 := by
  intro fuel
  induction fuel with
  | zero =>
      intro i
      simp only [escape_time_aux]
      constructor
      · intro _ k hk hk2; omega
      · intro _; trivial
  | succ fuel ih =>
      intro i
      rw [escape_time_aux]
      by_cases h : (zIter c i).norm_sqr > 4
      · rw [if_pos h]
        constructor
        · intro hcon; exact absurd hcon (by simp)
        · intro hall
          exact absurd (hall i (le_refl i) (by omega)) (by exact not_le.mpr h)
      · rw [if_neg h, ← zIter_succ c i, ih (i + 1)]
        push_neg at h
        constructor
        · intro hall k hk hk2
          rcases Nat.eq_or_lt_of_le hk with rfl | hki
          · exact h
          · exact hall k hki (by omega)
        · intro hall k hk hk2
          exact hall k (by omega) (by omega)

lemma escape_time_eq_some_iff (c : CQ) (limit j : ℕ) :
    escape_time c limit = some j ↔
      j < limit ∧ 4 < (zIter c j).norm_sqr ∧
        ∀ k < j, (zIter c k).norm_sqr ≤ 4 := by
  have h0 : (⟨0, 0⟩ : CQ) = zIter c 0 := rfl
  rw [escape_time, h0, escape_time_aux_eq_some_iff]
  constructor
  · rintro ⟨_, hjb, hesc, hall⟩
    exact ⟨by omega, hesc, fun k hk => hall k (Nat.zero_le k) hk⟩
  · rintro ⟨hjb, hesc, hall⟩
    exact ⟨Nat.zero_le j, by omega, hesc, fun k _ hk => hall k hk⟩

lemma escape_time_eq_none_iff (c : CQ) (limit : ℕ) :
    escape_time c limit = none ↔
      ∀ k < limit, (zIter c k).norm_sqr ≤ 4 := by
  have h0 : (⟨0, 0⟩ : CQ) = zIter c 0 := rfl
  rw [escape_time, h0, escape_time_aux_eq_none_iff]
  constructor
  · intro hall k hk; exact hall k (Nat.zero_le k) (by omega)
  · intro hall k _ hk; exact hall k (by omega)

lemma zIter_zero_c (n : ℕ) : zIter ⟨0, 0⟩ n = ⟨0, 0⟩ := by
  induction n with
  | zero => rfl
  | succ n ih => rw [zIter_succ, ih]; simp [CQ.mul, CQ.add]

lemma escape_time_zero_c (limit : ℕ) : escape_time ⟨0, 0⟩ limit = none := by
  rw [escape_time_eq_none_iff]
  intro k _
  rw [zIter_zero_c]
  norm_num [CQ.norm_sqr]

/-!  The write loops of `render`, characterized pointwise. -/

lemma rowPass_spec (g : ℕ → ℕ) :
    ∀ (n base : ℕ) (buf : List ℕ), base + n ≤ buf.length →
      ∃ out,
        (List.range n).foldlM
            (fun b column => setChecked b (base + column) (g column)) buf
          = some out ∧
        out.length = buf.length ∧
        ∀ j, out[j]? = if base ≤ j ∧ j < base + n then some (g (j - base))
          else buf[j]? := by
  intro n
  induction n with
  | zero =>
      intro base buf _
      refine ⟨buf, by simp, rfl, ?_⟩
      intro j
      rw [if_neg (by omega)]
  | succ n ih =>
      intro base buf hlen
      obtain ⟨out, hout, hleq, hget⟩ := ih base buf (by omega)
      have hb : base + n < out.length := by omega
      refine ⟨out.set (base + n) (g n), ?_, ?_, ?_⟩
      · rw [List.range_succ, List.foldlM_append, hout]
        simp [setChecked, if_pos hb]
      · rw [List.length_set]; exact hleq
      · intro j
        rw [List.getElem?_set]
        by_cases hj : base + n = j
        · subst hj
          rw [if_pos rfl, if_pos hb, if_pos (by omega)]
          have harg : base + n - base = n := by omega
          rw [harg]
        · rw [if_neg hj, hget j]
          by_cases h2 : base ≤ j ∧ j < base + n
          · rw [if_pos h2, if_pos (by omega)]
          · rw [if_neg h2, if_neg (by omega)]

lemma renderLoop_spec (w : ℕ) (f : ℕ → ℕ → ℕ) :
    ∀ (m : ℕ) (buf : List ℕ), m * w ≤ buf.length →
      ∃ out,
        (List.range m).foldlM
            (fun b row =>
              (List.range w).foldlM
                (fun b2 column =>
                  setChecked b2 (row * w + column) (f row column)) b) buf
          = some out ∧
        out.length = buf.length ∧
        ∀ j, out[j]? = if j < m * w then some (f (j / w) (j % w))
          else buf[j]? := by
  intro m
  induction m with
  | zero =>
      intro buf _
      refine ⟨buf, by simp, rfl, ?_⟩
      intro j
      rw [if_neg (by omega)]
  | succ m ih =>
      intro buf hlen
      have hmw : m * w ≤ buf.length := by
        calc m * w ≤ (m + 1) * w := Nat.mul_le_mul_right w (by omega)
        _ ≤ buf.length := hlen
      obtain ⟨out, hout, hleq, hget⟩ := ih buf hmw
      have hrow : m * w + w ≤ out.length := by
        rw [hleq]
        calc m * w + w = (m + 1) * w := by ring
        _ ≤ buf.length := hlen
      obtain ⟨out2, hout2, hleq2, hget2⟩ := rowPass_spec (f m) w (m * w) out hrow
      refine ⟨out2, ?_, by rw [hleq2, hleq], ?_⟩
      · rw [List.range_succ, List.foldlM_append, hout]
        simpa using hout2
      · intro j
        rw [hget2 j]
        by_cases hin : m * w ≤ j ∧ j < m * w + w
        · have hw : 0 < w := by omega
          have hdiv : j / w = m := Nat.div_eq_of_lt_le hin.1 (by
            calc j < m * w + w := hin.2
            _ = (m + 1) * w := by ring)
          have hsub : j - m * w < w := by omega
          have hmod : j % w = j - m * w := by
            conv_lhs => rw [show j = (j - m * w) + m * w by omega]
            rw [Nat.add_mul_mod_self_right, Nat.mod_eq_of_lt hsub]
          rw [if_pos hin, if_pos (by
            calc j < m * w + w := hin.2
            _ = (m + 1) * w := by ring), hdiv, hmod]
        · rw [if_neg hin, hget j]
          by_cases h2 : j < m * w
          · rw [if_pos h2, if_pos (by
              calc j < m * w := h2
              _ ≤ (m + 1) * w := Nat.mul_le_mul_right w (by omega))]
          · rw [if_neg h2, if_neg (by
              intro hcon
              have : j < m * w + w := by
                calc j < (m + 1) * w := hcon
                _ = m * w + w := by ring
              omega)]

lemma render_spec (w h : ℕ) (buf : List ℕ) (ul lr : CQ)
    (hlen : buf.length = w * h) :
    ∃ out, render buf (w, h) ul lr = some out ∧ out.length = w * h ∧
      ∀ j, out[j]? =
        if j < w * h then
          some (pixelColor (pixel_to_point (w, h) (j % w, j / w) ul lr))
        else none := by
  obtain ⟨out, hout, hleq, hget⟩ :=
    renderLoop_spec w
      (fun row column => pixelColor (pixel_to_point (w, h) (column, row) ul lr))
      h buf (le_of_eq (by rw [hlen, Nat.mul_comm]))
  refine ⟨out, ?_, by rw [hleq, hlen], ?_⟩
  · simp only [render]
    rw [if_pos hlen]
    exact hout
  · intro j
    rw [hget j]
    by_cases hj : j < w * h
    · rw [if_pos (by rw [Nat.mul_comm] at hj; exact hj), if_pos hj]
    · rw [if_neg (by rw [Nat.mul_comm h w]; exact hj), if_neg hj]
      exact List.getElem?_eq_none (by omega)

/-!  Geometry of the per-row bands. -/

lemma band_point_eq (w h : ℕ) (ul lr : CQ) (col r : ℕ) :
    pixel_to_point (w, 1) (col, 0)
      (pixel_to_point (w, h) (0, r) ul lr)
      (pixel_to_point (w, h) (w, r + 1) ul lr)
      = pixel_to_point (w, h) (col, r) ul lr := by
  ext
  · show (pixel_to_point (w, 1) (col, 0) _ _).re = _
    simp only [pixel_to_point, Nat.cast_zero, Nat.cast_one]
    rcases eq_or_ne (w : ℚ) 0 with hw | hw
    · rw [hw]
      ring
    · field_simp
  · show (pixel_to_point (w, 1) (col, 0) _ _).im = _
    simp only [pixel_to_point, Nat.cast_zero, Nat.cast_one]
    ring

lemma overwriteAt_length :
    ∀ (seg : List ℕ) (buf : List ℕ) (off : ℕ),
      (overwriteAt buf off seg).length = buf.length := by
  intro seg
  induction seg with
  | nil => intro buf off; rfl
  | cons v rest ih =>
      intro buf off
      rw [overwriteAt, ih, List.length_set]


lemma overwriteAt_getElem? :
    ∀ (seg : List ℕ) (buf : List ℕ) (off j : ℕ),
      (overwriteAt buf off seg)[j]? =
        if off ≤ j ∧ j < off + seg.length ∧ j < buf.length then seg[j - off]?
        else buf[j]? := by
  intro seg
  induction seg with
  | nil =>
      intro buf off j
      rw [overwriteAt,
        if_neg (show ¬(off ≤ j ∧ j < off + ([] : List ℕ).length ∧
          j < buf.length) by simp only [List.length_nil]; omega)]
  | cons v rest ih =>
      intro buf off j
      rw [overwriteAt, ih, List.length_set, List.getElem?_set]
      by_cases hj : off = j
      · subst hj
        rw [if_neg (show ¬(off + 1 ≤ off ∧ off < off + 1 + rest.length ∧
            off < buf.length) by omega), if_pos rfl]
        by_cases hlt : off < buf.length
        · rw [if_pos hlt,
            if_pos (show off ≤ off ∧ off < off + (v :: rest).length ∧
              off < buf.length by simp only [List.length_cons]; omega)]
          have h0 : off - off = 0 := by omega
          rw [h0, List.getElem?_cons_zero]
        · rw [if_neg hlt,
            if_neg (show ¬(off ≤ off ∧ off < off + (v :: rest).length ∧
              off < buf.length) by simp only [List.length_cons]; omega)]
          exact (List.getElem?_eq_none (by omega)).symm
      · rw [if_neg hj]
        by_cases h2 : off + 1 ≤ j ∧ j < off + 1 + rest.length ∧ j < buf.length
        · rw [if_pos h2,
            if_pos (show off ≤ j ∧ j < off + (v :: rest).length ∧
              j < buf.length by simp only [List.length_cons]; omega)]
          have hsk : j - off = (j - (off + 1)) + 1 := by omega
          rw [hsk, List.getElem?_cons_succ]
        · rw [if_neg h2,
            if_neg (show ¬(off ≤ j ∧ j < off + (v :: rest).length ∧
              j < buf.length) by simp only [List.length_cons]; omega)]

lemma placeBands_getElem? (w : ℕ) (hw : 0 < w) (bands : ℕ → List ℕ)
    (hband : ∀ r, (bands r).length = w) :
    ∀ (order : List ℕ) (buf : List ℕ),
      (∀ r ∈ order, (r + 1) * w ≤ buf.length) →
      ∀ j, (placeBands w bands order buf)[j]? =
        if j / w ∈ order then (bands (j / w))[j % w]? else buf[j]? := by
  intro order
  induction order with
  | nil =>
      intro buf _ j
      rw [if_neg (by simp)]
      rfl
  | cons r rest ih =>
      intro buf horder j
      have hlen2 : (overwriteAt buf (r * w) (bands r)).length = buf.length :=
        overwriteAt_length (bands r) buf (r * w)
      have hstep : placeBands w bands (r :: rest) buf
          = placeBands w bands rest (overwriteAt buf (r * w) (bands r)) := rfl
      rw [hstep, ih (overwriteAt buf (r * w) (bands r))
        (fun q hq => by rw [hlen2]; exact horder q (List.mem_cons_of_mem r hq)) j]
      by_cases hmem : j / w ∈ rest
      · rw [if_pos hmem, if_pos (List.mem_cons_of_mem r hmem)]
      · rw [if_neg hmem, overwriteAt_getElem?, hband r]
        by_cases hr : j / w = r
        · have hj1 : r * w ≤ j := by
            rw [← hr]
            exact Nat.div_mul_le_self j w
          have hmodlt : j % w < w := Nat.mod_lt j hw
          have hdm : w * (j / w) + j % w = j := Nat.div_add_mod j w
          have hjw : j = w * r + j % w := by rw [← hr]; exact hdm.symm
          have hj2 : j < r * w + w := by
            have hcw : r * w = w * r := Nat.mul_comm r w
            omega
          have hj3 : j < buf.length := by
            have h4 := horder r (List.mem_cons_self r rest)
            calc j < r * w + w := hj2
            _ = (r + 1) * w := by ring
            _ ≤ buf.length := h4
          rw [if_pos (show r * w ≤ j ∧ j < r * w + w ∧ j < buf.length from
            ⟨hj1, hj2, hj3⟩)]
          rw [if_pos (show j / w ∈ r :: rest by
            rw [hr]; exact List.mem_cons_self r rest)]
          have hmodsub : j - r * w = j % w := by
            have hcw : r * w = w * r := Nat.mul_comm r w
            omega
          rw [hr, hmodsub]
        · rw [if_neg (show ¬(r * w ≤ j ∧ j < r * w + w ∧ j < buf.length) from
            fun hcon => hr (Nat.div_eq_of_lt_le hcon.1 (by
              calc j < r * w + w := hcon.2.1
              _ = (r + 1) * w := by ring)))]
          rw [if_neg (show j / w ∉ r :: rest from fun hcon => by
            rcases List.mem_cons.mp hcon with hc | hc
            · exact hr hc
            · exact hmem hc)]

lemma renderBand_spec (w h : ℕ) (ul lr : CQ) (r : ℕ) :
    renderBand (w, h) ul lr r = some (bandBytes (w, h) ul lr r) ∧
      (bandBytes (w, h) ul lr r).length = w ∧
      ∀ j, (bandBytes (w, h) ul lr r)[j]? =
        if j < w then some (pixelColor (pixel_to_point (w, h) (j, r) ul lr))
        else none := by
  obtain ⟨out, hout, hleq, hget⟩ := render_spec w 1 (List.replicate w 0)
    (pixel_to_point (w, h) (0, r) ul lr)
    (pixel_to_point (w, h) (w, r + 1) ul lr)
    (by rw [List.length_replicate, Nat.mul_one])
  have hrb : renderBand (w, h) ul lr r = some out := hout
  have hbb : bandBytes (w, h) ul lr r = out := by
    rw [bandBytes, hrb]
    rfl
  refine ⟨by rw [hbb]; exact hrb, by rw [hbb, hleq, Nat.mul_one], ?_⟩
  intro j
  rw [hbb, hget j, Nat.mul_one]
  by_cases hj : j < w
  · rw [if_pos hj, if_pos hj, Nat.mod_eq_of_lt hj, Nat.div_eq_of_lt hj,
      band_point_eq]
  · rw [if_neg hj, if_neg hj]

lemma banded_render_eq (w h : ℕ) (hw : 0 < w) (ul lr : CQ) (order : List ℕ)
    (hperm : order.Perm (List.range h)) :
    render (List.replicate (w * h) 0) (w, h) ul lr
      = some (placeBands w (bandBytes (w, h) ul lr) order
          (List.replicate (w * h) 0)) := by
  obtain ⟨out, hout, hleq, hget⟩ :=
    render_spec w h (List.replicate (w * h) 0) ul lr (by rw [List.length_replicate])
  rw [hout]
  congr 1
  apply List.ext_getElem?
  intro j
  have horder : ∀ r ∈ order, (r + 1) * w ≤ (List.replicate (w * h) 0).length := by
    intro r hr
    have hrh : r < h := List.mem_range.mp (hperm.mem_iff.mp hr)
    rw [List.length_replicate]
    calc (r + 1) * w ≤ h * w := Nat.mul_le_mul_right w (by omega)
    _ = w * h := Nat.mul_comm h w
  rw [hget j, placeBands_getElem? w hw (bandBytes (w, h) ul lr)
    (fun r => ((renderBand_spec w h ul lr r).2).1) order
    (List.replicate (w * h) 0) horder j]
  have hmem : (j / w ∈ order) ↔ j / w < h := by
    rw [hperm.mem_iff, List.mem_range]
  by_cases hj : j < w * h
  · have hdlt : j / w < h := by
      rw [Nat.div_lt_iff_lt_mul hw]
      calc j < w * h := hj
      _ = h * w := Nat.mul_comm w h
    rw [if_pos hj, if_pos (hmem.mpr hdlt),
      ((renderBand_spec w h ul lr (j / w)).2).2 (j % w),
      if_pos (Nat.mod_lt j hw)]
  · have hdge : ¬(j / w < h) := by
      intro hcon
      apply hj
      rw [Nat.div_lt_iff_lt_mul hw] at hcon
      calc j < h * w := hcon
      _ = w * h := Nat.mul_comm h w
    rw [if_neg hj, if_neg (fun hcon => hdge (hmem.mp hcon)),
      List.getElem?_replicate, if_neg hj]

/-!  Splitting and `parse_pair` characterization. -/

lemma splitAtFirst_eq_none_iff :
    ∀ (s : List Char) (sep : Char), splitAtFirst s sep = none ↔ sep ∉ s := by
  intro s
  induction s with
  | nil => intro sep; simp [splitAtFirst]
  | cons c rest ih =>
      intro sep
      by_cases hc : c = sep
      · subst hc
        simp [splitAtFirst]
      · rw [splitAtFirst, if_neg hc, Option.map_eq_none', ih sep,
          List.mem_cons]
        constructor
        · intro hn hcon
          rcases hcon with hcon | hcon
          · exact hc hcon.symm
          · exact hn hcon
        · intro hn
          exact fun hcon => hn (Or.inr hcon)

lemma splitAtFirst_eq_some_iff :
    ∀ (s l r : List Char) (sep : Char),
      splitAtFirst s sep = some (l, r) ↔ s = l ++ sep :: r ∧ sep ∉ l := by
  intro s
  induction s with
  | nil =>
      intro l r sep
      simp [splitAtFirst]
  | cons c rest ih =>
      intro l r sep
      by_cases hc : c = sep
      · subst hc
        rw [splitAtFirst, if_pos rfl]
        cases l with
        | nil => simp
        | cons c2 l2 =>
            simp [List.cons_eq_append_iff]
            exact fun h1 _ h3 => absurd h1 h3
      · rw [splitAtFirst, if_neg hc]
        cases l with
        | nil =>
            simp only [List.nil_append]
            constructor
            · intro hcon
              rcases Option.map_eq_some'.mp hcon with ⟨p, _, hp⟩
              exact absurd (congrArg Prod.fst hp) (by simp)
            · rintro ⟨hs, _⟩
              exact absurd (List.head_eq_of_cons_eq hs) hc
        | cons c2 l2 =>
            rw [Option.map_eq_some']
            constructor
            · rintro ⟨⟨p1, p2⟩, hp, heq⟩
              simp only [Prod.mk.injEq, List.cons.injEq] at heq
              obtain ⟨⟨h1, h2⟩, h3⟩ := heq
              subst h1; subst h2; subst h3
              obtain ⟨hrest, hnot⟩ := (ih p1 p2 sep).mp hp
              refine ⟨by rw [hrest]; rfl, ?_⟩
              intro hcon
              rcases List.mem_cons.mp hcon with hcon2 | hcon2
              · exact hc hcon2.symm
              · exact hnot hcon2
            · rintro ⟨hs, hnot⟩
              have h1 : c = c2 := List.head_eq_of_cons_eq hs
              have h2 : rest = l2 ++ sep :: r := List.tail_eq_of_cons_eq hs
              refine ⟨(l2, r), (ih l2 r sep).mpr ⟨h2, ?_⟩, by rw [h1]⟩
              intro hcon
              exact hnot (List.mem_cons_of_mem c2 hcon)

lemma parse_pair_eq_none_of_not_mem {T : Type} (p : List Char → Option T)
    (s : List Char) (sep : Char) (h : sep ∉ s) :
    parse_pair p s sep = none := by
  unfold parse_pair
  rw [(splitAtFirst_eq_none_iff s sep).mpr h]

lemma parse_pair_eq_some_iff {T : Type} (p : List Char → Option T)
    (s : List Char) (sep : Char) (a b : T) :
    parse_pair p s sep = some (a, b) ↔
      ∃ l r, s = l ++ sep :: r ∧ sep ∉ l ∧ p l = some a ∧ p r = some b := by
  cases hsplit : splitAtFirst s sep with
  | none =>
      have hred : parse_pair p s sep = none := by
        unfold parse_pair
        rw [hsplit]
      rw [hred]
      constructor
      · intro hcon; exact absurd hcon (by simp)
      · rintro ⟨l, r, hs, hnotin, _, _⟩
        rw [splitAtFirst_eq_none_iff] at hsplit
        apply absurd _ hsplit
        rw [hs]
        exact List.mem_append_right l (List.mem_cons_self sep r)
  | some lr =>
      obtain ⟨l0, r0⟩ := lr
      obtain ⟨hs0, hnot0⟩ := (splitAtFirst_eq_some_iff s l0 r0 sep).mp hsplit
      have hred : parse_pair p s sep =
          (match p l0, p r0 with
            | some a, some b => some (a, b)
            | _, _ => none) := by
        unfold parse_pair
        rw [hsplit]
      rw [hred]
      constructor
      · intro h
        cases hpl : p l0 with
        | none =>
            rw [hpl] at h
            cases hpr : p r0 with
            | none => rw [hpr] at h; exact absurd h (by simp)
            | some b0 => rw [hpr] at h; exact absurd h (by simp)
        | some a0 =>
            rw [hpl] at h
            cases hpr : p r0 with
            | none => rw [hpr] at h; exact absurd h (by simp)
            | some b0 =>
                rw [hpr] at h
                have h2 : some (a0, b0) = some (a, b) := h
                simp only [Option.some.injEq, Prod.mk.injEq] at h2
                exact ⟨l0, r0, hs0, hnot0, by rw [hpl, h2.1], by rw [hpr, h2.2]⟩
      · rintro ⟨l, r, hs, hnotin, hpl, hpr⟩
        have huniq : splitAtFirst s sep = some (l, r) :=
          (splitAtFirst_eq_some_iff s l r sep).mpr ⟨hs, hnotin⟩
        rw [hsplit] at huniq
        simp only [Option.some.injEq, Prod.mk.injEq] at huniq
        obtain ⟨h1, h2⟩ := huniq
        subst h1; subst h2
        rw [hpl, hpr]

/-!  Claim theorems. -/

/-- C1: for every complex point `c` and positive `limit`, `escape_time c limit`
returns `some i` exactly when `i` is the first index in `[0, limit)` at which
the iteration `z_0 = 0`, `z_next = z*z + c` reaches squared magnitude above
`4`, and returns `none` exactly when no such index below `limit` exists. -/
theorem C1_escape_time_first_escape (c : CQ) (limit : ℕ) (hpos : 0 < limit) :
    (∀ i, escape_time c limit = some i ↔
      (i < limit ∧ 4 < (zIter c i).norm_sqr ∧
        ∀ j < i, (zIter c j).norm_sqr ≤ 4)) ∧
    (escape_time c limit = none ↔
      ∀ i < limit, (zIter c i).norm_sqr ≤ 4) :=
  ⟨fun i => escape_time_eq_some_iff c limit i, escape_time_eq_none_iff c limit⟩

/-- Witness for C1 at `c = 1 + 0i`, `limit = 10`. -/
theorem C1_witness :
    0 < 10 ∧ (escape_time ⟨1, 0⟩ 10 = none ↔
      ∀ i < 10, (zIter ⟨1, 0⟩ i).norm_sqr ≤ 4) :=
  ⟨by decide, (C1_escape_time_first_escape ⟨1, 0⟩ 10 (by decide)).2⟩

/-- C2: for positive bounds, `pixel_to_point` returns exactly the affine
formula `re = upper_left.re + column * plane_width / width`,
`im = upper_left.im - row * plane_height / height`. -/
theorem C2_pixel_to_point_formula (w h col row : ℕ) (ul lr : CQ)
    (hw : 0 < w) (hh : 0 < h) :
    pixel_to_point (w, h) (col, row) ul lr =
      ⟨ul.re + (col : ℚ) * (lr.re - ul.re) / (w : ℚ),
       ul.im - (row : ℚ) * (ul.im - lr.im) / (h : ℚ)⟩ := rfl

/-- Witness for C2 at the concrete instance of the repository's unit test. -/
theorem C2_witness :
    0 < 100 ∧ 0 < 200 ∧
    pixel_to_point (100, 200) (25, 175) ⟨-1, 1⟩ ⟨1, -1⟩ =
      ⟨(-1 : ℚ) + ((25 : ℕ) : ℚ) * ((1 : ℚ) - (-1 : ℚ)) / ((100 : ℕ) : ℚ),
       (1 : ℚ) - ((175 : ℕ) : ℚ) * ((1 : ℚ) - (-1 : ℚ)) / ((200 : ℕ) : ℚ)⟩ :=
  ⟨by decide, by decide,
   C2_pixel_to_point_formula 100 200 25 175 ⟨-1, 1⟩ ⟨1, -1⟩
     (by decide) (by decide)⟩

/-- C3: when the buffer length equals `width * height`, `render` succeeds and
the byte at index `r * width + col` is `0` when the mapped point has no escape
below `255`, else `255 - count`. -/
theorem C3_render_pixel_bytes (w h : ℕ) (buf : List ℕ) (ul lr : CQ)
    (hlen : buf.length = w * h) (r col : ℕ) (hr : r < h) (hcol : col < w) :
    ∃ out, render buf (w, h) ul lr = some out ∧
      out[r * w + col]? =
        some (match escape_time (pixel_to_point (w, h) (col, r) ul lr) 255 with
          | none => 0
          | some count => 255 - count) := by
  obtain ⟨out, hout, hleq, hget⟩ := render_spec w h buf ul lr hlen
  refine ⟨out, hout, ?_⟩
  have hidx : r * w + col < w * h := by
    calc r * w + col < r * w + w := by omega
    _ = (r + 1) * w := by ring
    _ ≤ h * w := Nat.mul_le_mul_right w (by omega)
    _ = w * h := Nat.mul_comm h w
  have hmod : (r * w + col) % w = col := by
    rw [Nat.add_comm, Nat.add_mul_mod_self_right, Nat.mod_eq_of_lt hcol]
  have hdiv : (r * w + col) / w = r := Nat.div_eq_of_lt_le (by omega) (by
    calc r * w + col < r * w + w := by omega
    _ = (r + 1) * w := by ring)
  rw [hget, if_pos hidx, hmod, hdiv]
  rfl

/-- Witness for C3 on a 2-by-1 image. -/
theorem C3_witness :
    ∃ out, render [0, 0] (2, 1) ⟨0, 0⟩ ⟨2, 0⟩ = some out ∧
      out[0 * 2 + 1]? =
        some (match escape_time (pixel_to_point (2, 1) (1, 0) ⟨0, 0⟩ ⟨2, 0⟩)
            255 with
          | none => 0
          | some count => 255 - count) :=
  C3_render_pixel_bytes 2 1 [0, 0] ⟨0, 0⟩ ⟨2, 0⟩ (by decide) 0 1
    (by decide) (by decide)

/-- C4: splitting the zero-initialized buffer into one band per row, rendering
each band as a `(width, 1)` sub-image with corners derived through
`pixel_to_point`, and writing the bands back in an arbitrary order (any
permutation of the rows, modelling Rayon's scheduling) yields exactly the
buffer of the whole-image `render`. -/
theorem C4_banded_equals_whole (w h : ℕ) (ul lr : CQ) (order : List ℕ)
    (hw : 0 < w) (hperm : order.Perm (List.range h)) :
    render (List.replicate (w * h) 0) (w, h) ul lr
      = some (placeBands w (bandBytes (w, h) ul lr) order
          (List.replicate (w * h) 0)) :=
  banded_render_eq w h hw ul lr order hperm

/-- Witness for C4 on a 1-by-2 image with the two rows processed in reversed
order. -/
theorem C4_witness :
    0 < 1 ∧ ([1, 0] : List ℕ).Perm (List.range 2) ∧
    render (List.replicate (1 * 2) 0) (1, 2) ⟨0, 0⟩ ⟨1, -2⟩
      = some (placeBands 1 (bandBytes (1, 2) ⟨0, 0⟩ ⟨1, -2⟩) [1, 0]
          (List.replicate (1 * 2) 0)) :=
  ⟨by decide, by decide,
   C4_banded_equals_whole 1 2 ⟨0, 0⟩ ⟨1, -2⟩ [1, 0] (by decide) (by decide)⟩

/-- C5: `escape_time` is monotone in the escape sense: an escape result
`some i` is stable under any limit of at least `i + 1`, and a `none` result
can only stay `none` or become `some j` with `j ≥ limit` when the limit
grows. -/
theorem C5_escape_time_monotone (c : CQ) (limit limit2 i : ℕ) :
    (escape_time c limit = some i → i + 1 ≤ limit2 →
      escape_time c limit2 = some i) ∧
    (escape_time c limit = none → limit ≤ limit2 →
      escape_time c limit2 = none ∨
        ∃ j, escape_time c limit2 = some j ∧ limit ≤ j) := by
  constructor
  · intro hsome hlim
    obtain ⟨hi, hesc, hall⟩ := (escape_time_eq_some_iff c limit i).mp hsome
    exact (escape_time_eq_some_iff c limit2 i).mpr ⟨by omega, hesc, hall⟩
  · intro hnone _
    have hall := (escape_time_eq_none_iff c limit).mp hnone
    cases he : escape_time c limit2 with
    | none => exact Or.inl rfl
    | some j =>
        obtain ⟨hj, hesc, _⟩ := (escape_time_eq_some_iff c limit2 j).mp he
        refine Or.inr ⟨j, rfl, ?_⟩
        by_contra hcon
        push_neg at hcon
        exact absurd hesc (not_lt.mpr (hall j hcon))

/-- Witness for C5: the escape at index 3 found with limit 10 persists at
limit 12. -/
theorem C5_witness : escape_time ⟨1, 0⟩ 12 = some 3 :=
  (C5_escape_time_monotone ⟨1, 0⟩ 10 12 3).1
    (by norm_num [escape_time, escape_time_aux, CQ.mul, CQ.add, CQ.norm_sqr])
    (by decide)

/-- C6: for positive bounds, `pixel_to_point` sends pixel `(0, 0)` exactly to
`upper_left` and pixel `(width, height)` exactly to `lower_right`. -/
theorem C6_corner_pixels (w h : ℕ) (ul lr : CQ) (hw : 0 < w) (hh : 0 < h) :
    pixel_to_point (w, h) (0, 0) ul lr = ul ∧
    pixel_to_point (w, h) (w, h) ul lr = lr := by
  have hwq : (w : ℚ) ≠ 0 := Nat.cast_ne_zero.mpr (by omega)
  have hhq : (h : ℚ) ≠ 0 := Nat.cast_ne_zero.mpr (by omega)
  constructor
  · ext
    · simp [pixel_to_point]
    · simp [pixel_to_point]
  · ext
    · simp only [pixel_to_point]
      field_simp
    · simp only [pixel_to_point]
      field_simp

/-- Witness for C6 on a 2-by-3 viewport. -/
theorem C6_witness :
    pixel_to_point (2, 3) (0, 0) ⟨5, 7⟩ ⟨11, 13⟩ = ⟨5, 7⟩ ∧
    pixel_to_point (2, 3) (2, 3) ⟨5, 7⟩ ⟨11, 13⟩ = ⟨11, 13⟩ :=
  C6_corner_pixels 2 3 ⟨5, 7⟩ ⟨11, 13⟩ (by decide) (by decide)

/-- C7: `parse_pair` splits at the first occurrence of the separator and
succeeds exactly when both substrings parse; it fails when the separator is
absent; and the four concrete examples of the specification evaluate as
stated (the `f64` values `0.5` and `1.5` are exact). -/
theorem C7_parse_pair_spec :
    (∀ (T : Type) (p : List Char → Option T) (s : List Char) (sep : Char)
        (a b : T),
      parse_pair p s sep = some (a, b) ↔
        ∃ l r, s = l ++ sep :: r ∧ sep ∉ l ∧ p l = some a ∧ p r = some b) ∧
    (∀ (T : Type) (p : List Char → Option T) (s : List Char) (sep : Char),
      sep ∉ s → parse_pair p s sep = none) ∧
    parse_pair i32_from_str ("10,20".toList) ',' = some (10, 20) ∧
    parse_pair i32_from_str ("".toList) ',' = none ∧
    parse_pair i32_from_str ("10,".toList) ',' = none ∧
    parse_pair f64_from_str ("0.5x1.5".toList) 'x' = some (1/2, 3/2) := by
  refine ⟨fun T p s sep a b => parse_pair_eq_some_iff p s sep a b,
    fun T p s sep h => parse_pair_eq_none_of_not_mem p s sep h,
    by decide, by decide, by decide, ?_⟩
  have hl : f64_from_str ("0.5".toList)
      = some ((digitsToNat ['0'] : ℚ)
          + (digitsToNat ['5'] : ℚ) / (10 ^ (['5'] : List Char).length : ℚ)) :=
    rfl
  have hr : f64_from_str ("1.5".toList)
      = some ((digitsToNat ['1'] : ℚ)
          + (digitsToNat ['5'] : ℚ) / (10 ^ (['5'] : List Char).length : ℚ)) :=
    rfl
  have hd0 : digitsToNat ['0'] = 0 := by decide
  have hd1 : digitsToNat ['1'] = 1 := by decide
  have hd5 : digitsToNat ['5'] = 5 := by decide
  have hl2 : f64_from_str ("0.5".toList) = some ((1 : ℚ)/2) := by
    rw [hl, hd0, hd5]
    norm_num
  have hr2 : f64_from_str ("1.5".toList) = some ((3 : ℚ)/2) := by
    rw [hr, hd1, hd5]
    norm_num
  exact (parse_pair_eq_some_iff f64_from_str _ 'x' _ _).mpr
    ⟨"0.5".toList, "1.5".toList, by decide, by decide, hl2, hr2⟩

/-- Witness for C7: the separator-free string from the repository's unit test
yields no value. -/
theorem C7_witness : parse_pair i32_from_str ("1020".toList) ',' = none :=
  C7_parse_pair_spec.2.1 ℤ i32_from_str ("1020".toList) ',' (by decide)

/-- C8: `render` aborts (modelled by `none`) exactly on the contract breach
`buffer.length ≠ width * height`; under the contract every checked buffer
write is in bounds and rendering completes. -/
theorem C8_render_contract (buf : List ℕ) (bounds : ℕ × ℕ) (ul lr : CQ) :
    (buf.length ≠ bounds.1 * bounds.2 → render buf bounds ul lr = none) ∧
    (buf.length = bounds.1 * bounds.2 → (render buf bounds ul lr).isSome) := by
  constructor
  · intro hne
    rw [render, if_neg hne]
  · intro heq
    obtain ⟨w, h⟩ := bounds
    obtain ⟨out, hout, _, _⟩ := render_spec w h buf ul lr heq
    rw [hout]
    rfl

/-- Witness for C8: a one-byte buffer breaches the 2-by-1 contract and aborts;
a two-byte buffer satisfies it and rendering completes. -/
theorem C8_witness :
    render [0] (2, 1) ⟨0, 0⟩ ⟨2, 0⟩ = none ∧
    (render [0, 0] (2, 1) ⟨0, 0⟩ ⟨2, 0⟩).isSome :=
  ⟨(C8_render_contract [0] (2, 1) ⟨0, 0⟩ ⟨2, 0⟩).1 (by decide),
   (C8_render_contract [0, 0] (2, 1) ⟨0, 0⟩ ⟨2, 0⟩).2 (by decide)⟩

/-- C9: the origin never escapes within any limit up to 100000: the iterate
stays at `0`, so `escape_time` yields no value. -/
theorem C9_origin_never_escapes (limit : ℕ) (hlim : limit ≤ 100000) :
    escape_time ⟨0, 0⟩ limit = none ∧ ∀ k, zIter ⟨0, 0⟩ k = ⟨0, 0⟩ :=
  ⟨escape_time_zero_c limit, zIter_zero_c⟩

/-- Witness for C9 at the render limit 255. -/
theorem C9_witness :
    escape_time ⟨0, 0⟩ 255 = none ∧ ∀ k, zIter ⟨0, 0⟩ k = ⟨0, 0⟩ :=
  C9_origin_never_escapes 255 (by decide)

/-- C10: `escape_time` is total in the model; any returned count is below the
limit, and the limit `0` (excluded by the spec's positive-limit wording but
accepted by the code) yields no value for every point. -/
theorem C10_escape_time_total_bound (c : CQ) (limit : ℕ) :
    (∀ i, escape_time c limit = some i → i < limit) ∧
    escape_time c 0 = none := by
  constructor
  · intro i hsome
    exact ((escape_time_eq_some_iff c limit i).mp hsome).1
  · rfl

/-- Witness for C10 at `c = 1 + 0i`, `limit = 10`, whose escape index 3 is
below the limit. -/
theorem C10_witness : 3 < 10 ∧ escape_time ⟨1, 0⟩ 0 = none :=
  ⟨(C10_escape_time_total_bound ⟨1, 0⟩ 10).1 3
    (by norm_num [escape_time, escape_time_aux, CQ.mul, CQ.add, CQ.norm_sqr]),
   (C10_escape_time_total_bound ⟨1, 0⟩ 10).2⟩
